import Mathlib

/-!
Verification of the two experiment scripts `median_perf.py` and
`median_estimate_accuracy.py`.

Embedding conventions:
* Python floats are modelled as exact rationals (`ℚ`).
* Randomness (`random.random`, `random.gauss`, `random.expovariate`,
  `random.sample`) and the wall clock (`time.clock`) are modelled as oracle
  parameters supplying the values each call would draw; contracts of the
  random primitives (for example `random() ∈ [0,1)`) become hypotheses.
* Python lists that the code mutates in place are threaded explicitly:
  a function that mutates its argument returns the final state of that list.
* Code that can raise returns `Option`/`Except`; `none`/`.error` is a raise.
* `heapq` (CPython's binary-heap library used by `median_perf.py`) is
  embedded operation by operation from its pure-Python reference
  implementation (`_siftup`, `_siftdown`, `heapify`, `heappop`), with the
  two internal while-loops written with explicit fuel (the fuel supplied at
  the call sites is proved sufficient in the lemmas below, so the embedded
  functions agree with the unbounded loops on every reachable input).
* Python's builtin `sorted` is modelled by `List.insertionSort (· ≤ ·)`:
  `sorted` is specified by "sorted permutation", which determines the output
  uniquely over a linear order.
-/

/-- Python `range(start, stop, step)` for a positive step. -/
def pyRange (start stop step : Nat) : List Nat :=
  (List.range ((stop - start + step - 1) / step)).map (fun i => start + step * i)

/-- Python dict assignment `d[k] = v`: overwrite the entry when the key is
present, append a new entry otherwise (dicts preserve insertion order). -/
def dictAssign (d : List (Nat × ℚ)) (k : Nat) (v : ℚ) : List (Nat × ℚ) :=
  if (d.map Prod.fst).contains k then
    d.map (fun p => if p.1 = k then (k, v) else p)
  else d ++ [(k, v)]

/-- Python `sorted` on a list of numbers. -/
def sortQ (L : List ℚ) : List ℚ := List.insertionSort (· ≤ ·) L

/-- Python `str.lower()` (ASCII case mapping, which covers every mode name
the scripts compare against). -/
def pyLower (s : String) : String := String.mk (s.data.map Char.toLower)

namespace heapq

/-- Inner while-loop of CPython `heapq._siftup`: bubble the smaller child up
into the hole at `pos` until the hole reaches a leaf.  Returns the final
array and the final hole position.  `fuel` only bounds the iteration count;
`fuel = arr.length` is proved sufficient. -/
def siftupDown (fuel : Nat) (pos : Nat) (arr : List ℚ) : List ℚ × Nat :=
  match fuel with
  | 0 => (arr, pos)
  | fuel + 1 =>
    let endpos := arr.length
    let childpos := 2 * pos + 1
    if childpos < endpos then
      let rightpos := childpos + 1
      let c :=
        if rightpos < endpos ∧ ¬ (arr.getD childpos 0 < arr.getD rightpos 0)
        then rightpos else childpos
      siftupDown fuel c (arr.set pos (arr.getD c 0))
    else (arr, pos)

/-- While-loop of CPython `heapq._siftdown`: bubble `newitem` toward the root
while it is smaller than its parent, shifting parents down.  Returns the
final array (hole not yet filled) and the final hole position.
`fuel = pos` is proved sufficient. -/
def siftdownUp (fuel : Nat) (startpos : Nat) (newitem : ℚ) (pos : Nat)
    (arr : List ℚ) : List ℚ × Nat :=
  match fuel with
  | 0 => (arr, pos)
  | fuel + 1 =>
    if startpos < pos then
      let parentpos := (pos - 1) / 2
      let parent := arr.getD parentpos 0
      if newitem < parent then
        siftdownUp fuel startpos newitem parentpos (arr.set pos parent)
      else (arr, pos)
    else (arr, pos)

/-- CPython `heapq._siftdown(heap, startpos, pos)`. -/
def siftdown (heap : List ℚ) (startpos pos : Nat) : List ℚ :=
  let newitem := heap.getD pos 0
  let r := siftdownUp pos startpos newitem pos heap
  r.1.set r.2 newitem

/-- CPython `heapq._siftup(heap, pos)`: save `heap[pos]`, sift the hole down
to a leaf always taking the smaller child, drop the saved item into the
leaf, then sift it back up with `_siftdown`. -/
def siftup (heap : List ℚ) (pos : Nat) : List ℚ :=
  let startpos := pos
  let newitem := heap.getD pos 0
  let r := siftupDown heap.length pos heap
  siftdown (r.1.set r.2 newitem) startpos r.2

/-- The loop `for i in reversed(range(n // 2)): _siftup(x, i)`:
`heapifyLoop k` performs the calls for `i = k - 1, …, 0`. -/
def heapifyLoop : Nat → List ℚ → List ℚ
  | 0, h => h
  | k + 1, h => heapifyLoop k (siftup h k)

/-- CPython `heapq.heapify`. -/
def heapify (x : List ℚ) : List ℚ := heapifyLoop (x.length / 2) x

/-- CPython `heapq.heappop`: pop the last element; if the heap is still
nonempty, move that element to the root and restore the heap with
`_siftup`.  `none` models the `IndexError` raised on an empty list. -/
def heappop (heap : List ℚ) : Option (ℚ × List ℚ) :=
  match heap.getLast? with
  | none => none
  | some lastelt =>
    let rest := heap.dropLast
    if rest.isEmpty then some (lastelt, rest)
    else
      let returnitem := rest.getD 0 0
      some (returnitem, siftup (rest.set 0 lastelt) 0)

/-- Binary min-heap invariant of the array representation used by `heapq`:
every parent is at most each of its children. -/
def IsHeapFrom (l : List ℚ) (k : Nat) : Prop :=
  ∀ i j, k ≤ i → (j = 2 * i + 1 ∨ j = 2 * i + 2) → j < l.length →
    l.getD i 0 ≤ l.getD j 0

/-- Heap invariant of the whole array. -/
def IsHeap (l : List ℚ) : Prop := IsHeapFrom l 0

/-- Heap invariant from level `k` on, except that parent-child edges touching
the "hole" position `p` are not required to hold. -/
def HeapExceptAt (l : List ℚ) (k p : Nat) : Prop :=
  ∀ i j, k ≤ i → (j = 2 * i + 1 ∨ j = 2 * i + 2) → j < l.length →
    i ≠ p → j ≠ p → l.getD i 0 ≤ l.getD j 0

/-- Positions belonging to the subtree rooted at `s` in the implicit binary
tree laid out on array indices (children of `i` are `2i+1` and `2i+2`). -/
inductive InSubtree (s : Nat) : Nat → Prop
  | refl : InSubtree s s
  | left {j : Nat} : InSubtree s j → InSubtree s (2 * j + 1)
  | right {j : Nat} : InSubtree s j → InSubtree s (2 * j + 2)

end heapq

namespace perf

/-- Function `experimental_data` of `median_perf.py`
(`[rng.random() for i in range(length)]`); `u i` is the value drawn by the
`i`-th call of `random.random()`. -/
def experimental_data (length : Nat) (u : Nat → ℚ) : List ℚ :=
  (List.range length).map u

/-- Pop `k` times from a heap, discarding the popped values; `none` when a
pop raises. -/
def popN : Nat → List ℚ → Option (List ℚ)
  | 0, h => some h
  | k + 1, h => (heapq.heappop h).bind (fun p => popN k p.2)

/-- Function `heap_median` of `median_perf.py`: `heapify(L)`, pop
`len(L) // 2` times, then return the next pop.  The result pairs the
returned value with the final state of the caller's list `L`, which the
function mutates in place. -/
def heap_median (L : List ℚ) : Option (ℚ × List ℚ) :=
  (popN (L.length / 2) (heapq.heapify L)).bind heapq.heappop

/-- Function `sort_median` of `median_perf.py`: `sorted(L)[len(L) // 2]`.
The result pairs the returned value with the final state of the caller's
list `L`; `sorted` copies, so that state is `L` itself. -/
def sort_median (L : List ℚ) : Option (ℚ × List ℚ) :=
  ((sortQ L)[L.length / 2]?).map (fun v => (v, L))

/-- Function `time_median` of `median_perf.py`: the two `time.clock()`
readings around the timed call are supplied as the oracle pair `c`. -/
def time_median (c : ℚ × ℚ) : ℚ := c.2 - c.1

/-- Trial loop of `run_test` in `median_perf.py`.  `sortClk len i`
(resp. `heapClk len i`) is the pair of clock readings taken by trial `i` of
`time_median(sort_median, len)` (resp. `heap_median`).  Returns the two
result tables. -/
def run_test (sortClk heapClk : Nat → Nat → ℚ × ℚ) :
    List (Nat × ℚ) × List (Nat × ℚ) :=
  (pyRange (2 ^ 10) (2 ^ 19) (2 ^ 15)).foldl
    (fun t len =>
      (dictAssign t.1 len
        ((((List.range 5).map (fun i => time_median (sortClk len i))).sum) / 5),
       dictAssign t.2 len
        ((((List.range 5).map (fun i => time_median (heapClk len i))).sum) / 5)))
    ([], [])

end perf

namespace accuracy

/-- Python builtin `round` on an exact rational: round to the nearest
integer, ties to the even integer. -/
def pyRound (x : ℚ) : ℤ :=
  let f := ⌊x⌋
  let r := x - f
  if r < 1 / 2 then f
  else if 1 / 2 < r then f + 1
  else if f % 2 = 0 then f else f + 1

/-- Function `experimental_data` of `median_estimate_accuracy.py`.
`u`, `g`, `e` are the value streams of `random.random()`, `random.gauss`
and `random.expovariate`; `.error` models the raised `Exception`. -/
def experimental_data (mode : String) (length : Nat) (u g e : Nat → ℚ) :
    Except String (List ℚ) :=
  if pyLower mode = "uniform" then
    .ok ((List.range length).map u)
  else if pyLower mode = "normal" then
    .ok (((List.range length).map g).map
      (fun val => (pyRound (val * 10) : ℚ) / 10))
  else if pyLower mode = "exponential" then
    .ok (((List.range length).map e).map
      (fun val => (pyRound (val * 10) : ℚ) / 10))
  else
    .error ("Please choose a valid mode. " ++ mode ++ " is not valid.")

/-- Function `score_median` of `median_estimate_accuracy.py`.
`random.sample(data, sample_size)` is modelled by the oracle `sel`: the list
of distinct positions the sampler picks in `data` (the call raises
`ValueError` when `sample_size` exceeds the population size).  The final
division raises `ZeroDivisionError` when the true median is zero. -/
def score_median (data_mode : String) (sample_size : Nat) (u g e : Nat → ℚ)
    (sel : List Nat) : Except String ℚ :=
  match experimental_data data_mode 16384 u g e with
  | .error m => .error m
  | .ok data0 =>
    let data := sortQ data0
    match data[data.length / 2]? with
    | none => .error "IndexError"
    | some actual_median =>
      if sample_size ≤ data.length then
        let sample := sel.map (fun i => data.getD i 0)
        let sorted_sample := sortQ sample
        match sorted_sample[sorted_sample.length / 2]? with
        | none => .error "IndexError"
        | some estimated_median =>
          if actual_median = 0 then .error "ZeroDivisionError"
          else .ok (|estimated_median - actual_median| / actual_median)
      else .error "ValueError"

/-- Trial loop of `run_test` in `median_estimate_accuracy.py`.  Each call of
`score_median` consumes fresh randomness, so its outcome is supplied by the
oracle `score mode sample_size trial`.  Returns the three result tables
(uniform, normal, exponential). -/
def run_test (score : String → Nat → Nat → ℚ) :
    List (Nat × ℚ) × List (Nat × ℚ) × List (Nat × ℚ) :=
  (pyRange 4 128 4).foldl
    (fun t s =>
      (dictAssign t.1 s
        ((((List.range 20).map (fun i => score "uniform" s i)).sum) / 20),
       dictAssign t.2.1 s
        ((((List.range 20).map (fun i => score "normal" s i)).sum) / 20),
       dictAssign t.2.2 s
        ((((List.range 20).map (fun i => score "exponential" s i)).sum) / 20)))
    ([], [], [])

end accuracy

example : (perf.sort_median [1, 2]).map Prod.fst = some 2 := by decide
example : (perf.heap_median [1, 2]).map Prod.fst = some 2 := by decide
example :
    (perf.heap_median [1, 2, 3, 4, 5, 6, 7, 8, 9, 10]).map Prod.fst
      = some 6 := by decide
example :
    (perf.heap_median [3, 1, 4, 1, 5, 9, 2, 6]).map Prod.fst = some 4 := by
  decide
example : (perf.heap_median [5, 3, 8]).map Prod.fst = some 5 := by decide
example : pyRange 4 128 4 = [4, 8, 12, 16, 20, 24, 28, 32, 36, 40, 44, 48,
    52, 56, 60, 64, 68, 72, 76, 80, 84, 88, 92, 96, 100, 104, 108, 112, 116,
    120, 124] := by decide
example : (pyRange 1024 524288 32768).length = 16 := by decide
/-- Evaluation rule for `pyRound` once the floor of the argument is known. -/
theorem accuracy.pyRound_eval (x : ℚ) (f : ℤ) (h : ⌊x⌋ = f) :
    accuracy.pyRound x =
      if x - f < 1 / 2 then f
      else if 1 / 2 < x - f then f + 1
      else if f % 2 = 0 then f else f + 1 := by
  simp only [accuracy.pyRound, h]

example : accuracy.pyRound (5 / 2) = 2 := by
  rw [accuracy.pyRound_eval _ 2 (by norm_num)]; norm_num
example : accuracy.pyRound (7 / 2) = 4 := by
  rw [accuracy.pyRound_eval _ 3 (by norm_num)]; norm_num
example : accuracy.pyRound (-3 / 2) = -2 := by
  rw [accuracy.pyRound_eval _ (-2) (by norm_num)]; norm_num
example : accuracy.experimental_data "FOO" 3 (fun _ => 0) (fun _ => 0)
    (fun _ => 0) = .error "Please choose a valid mode. FOO is not valid." := by
  rfl
example : accuracy.experimental_data "Normal" 2 (fun _ => 0)
    (fun _ => 17 / 100) (fun _ => 0) = .ok [1 / 5, 1 / 5] := by
  rw [accuracy.experimental_data, if_neg (by decide), if_pos (by decide)]
  norm_num [List.range_succ,
    accuracy.pyRound_eval (17 / 100 * 10 : ℚ) 1 (by norm_num),
    accuracy.pyRound_eval (17 / 10 : ℚ) 1 (by norm_num)]

/-! Basic list helpers used throughout the heap development. -/

theorem getD_set_self (l : List ℚ) (p : Nat) (x : ℚ) (hp : p < l.length) :
    (l.set p x).getD p 0 = x := by
  rw [List.getD_eq_getElem?_getD, List.getElem?_set]
  simp [hp]

theorem getD_set_ne (l : List ℚ) (p q : Nat) (x : ℚ) (h : p ≠ q) :
    (l.set p x).getD q 0 = l.getD q 0 := by
  rw [List.getD_eq_getElem?_getD, List.getElem?_set, if_neg h,
    ← List.getD_eq_getElem?_getD]

theorem set_getD_self (l : List ℚ) (p : Nat) (hp : p < l.length) :
    l.set p (l.getD p 0) = l := by
  induction l generalizing p with
  | nil => simp at hp
  | cons a t ih =>
    cases p with
    | zero => simp [List.set]
    | succ p =>
      simp only [List.set, List.getD_cons_succ]
      rw [ih p (by simpa using hp)]

theorem coe_set_add (l : List ℚ) (p : Nat) (x : ℚ) (hp : p < l.length) :
    ((l.set p x : List ℚ) : Multiset ℚ) + {l.getD p 0}
      = (l : Multiset ℚ) + {x} := by
  induction l generalizing p with
  | nil => simp at hp
  | cons a t ih =>
    cases p with
    | zero =>
      simp only [List.set, List.getD_cons_zero]
      rw [← Multiset.cons_coe, ← Multiset.cons_coe,
        ← Multiset.singleton_add, ← Multiset.singleton_add]
      abel
    | succ p =>
      simp only [List.set, List.getD_cons_succ]
      rw [← Multiset.cons_coe, ← Multiset.cons_coe,
        ← Multiset.singleton_add, ← Multiset.singleton_add,
        add_assoc, add_assoc, ih p (by simpa using hp)]

namespace heapq

theorem InSubtree.le {s j : Nat} (h : InSubtree s j) : s ≤ j := by
  induction h with
  | refl => exact Nat.le_refl s
  | left _ ih => omega
  | right _ ih => omega

theorem InSubtree.parent {s j : Nat} (h : InSubtree s j) (hne : j ≠ s) :
    InSubtree s ((j - 1) / 2) := by
  cases h with
  | refl => exact absurd rfl hne
  | @left i h =>
    have e : (2 * i + 1 - 1) / 2 = i := by omega
    rw [e]; exact h
  | @right i h =>
    have e : (2 * i + 2 - 1) / 2 = i := by omega
    rw [e]; exact h

end heapq

namespace heapq

/-- Effect of one iteration of the `_siftup` down-phase loop: moving the
smaller child `c` of the hole `pos` up into the hole re-establishes every
invariant with the hole now at `c`. -/
theorem siftupDown_step (A arr : List ℚ) (s pos c : Nat)
    (hlen : arr.length = A.length) (hpos : pos < A.length)
    (hsub : InSubtree s pos)
    (hHE : HeapExceptAt arr s pos)
    (hbr : pos ≠ s → ∀ j, (j = 2 * pos + 1 ∨ j = 2 * pos + 2) →
      j < A.length → arr.getD ((pos - 1) / 2) 0 ≤ arr.getD j 0)
    (hM : ∀ d : ℚ, ((arr.set pos d : List ℚ) : Multiset ℚ)
      = ((A.set s d : List ℚ) : Multiset ℚ))
    (hc : c = 2 * pos + 1 ∨ c = 2 * pos + 2) (hcl : c < A.length)
    (hmin : ∀ j, (j = 2 * pos + 1 ∨ j = 2 * pos + 2) → j ≠ c →
      j < A.length → arr.getD c 0 ≤ arr.getD j 0) :
    (arr.set pos (arr.getD c 0)).length = A.length ∧
    InSubtree s c ∧
    HeapExceptAt (arr.set pos (arr.getD c 0)) s c ∧
    (c ≠ s → ∀ j, (j = 2 * c + 1 ∨ j = 2 * c + 2) → j < A.length →
      (arr.set pos (arr.getD c 0)).getD ((c - 1) / 2) 0
        ≤ (arr.set pos (arr.getD c 0)).getD j 0) ∧
    (∀ d : ℚ, (((arr.set pos (arr.getD c 0)).set c d : List ℚ) : Multiset ℚ)
      = ((A.set s d : List ℚ) : Multiset ℚ)) := by
  have hposarr : pos < arr.length := by rw [hlen]; exact hpos
  have hpc : pos < c := by omega
  have hsc : InSubtree s c := by
    rcases hc with rfl | rfl
    · exact hsub.left
    · exact hsub.right
  refine ⟨by rw [List.length_set, hlen], hsc, ?_, ?_, ?_⟩
  · -- heap invariant except at the new hole `c`
    intro i j hi hedge hjlen hic hjc
    rw [List.length_set, hlen] at hjlen
    by_cases hjp : j = pos
    · have hine : pos ≠ s := by rcases hedge with h1 | h1 <;> omega
      have hi2 : i = (pos - 1) / 2 := by rcases hedge with h1 | h1 <;> omega
      have hilt : i < pos := by rcases hedge with h1 | h1 <;> omega
      rw [hjp, getD_set_ne arr pos i _ (by omega),
        getD_set_self arr pos _ hposarr, hi2]
      exact hbr hine c hc hcl
    · by_cases hip : i = pos
      · rw [hip, getD_set_self arr pos _ hposarr,
          getD_set_ne arr pos j _ (fun h => hjp h.symm)]
        refine hmin j ?_ hjc hjlen
        rw [← hip]; exact hedge
      · rw [getD_set_ne arr pos i _ (fun h => hip h.symm),
          getD_set_ne arr pos j _ (fun h => hjp h.symm)]
        exact hHE i j hi hedge (by rw [hlen]; exact hjlen) hip hjp
  · -- bridge: the grandparent of the new hole bounds the hole's children
    intro _ j hedge hjlen
    have hcp : (c - 1) / 2 = pos := by rcases hc with rfl | rfl <;> omega
    have hjpos : j ≠ pos := by rcases hedge with rfl | rfl <;> omega
    rw [hcp, getD_set_self arr pos _ hposarr,
      getD_set_ne arr pos j _ (fun h => hjpos h.symm)]
    exact hHE c j hsc.le hedge (by rw [hlen]; exact hjlen) (by omega) hjpos
  · -- the array with the hole filled is still a permutation of `A` with the
    -- original hole filled by the same value
    intro d
    have h1 := coe_set_add (arr.set pos (arr.getD c 0)) c d
      (by rw [List.length_set, hlen]; exact hcl)
    rw [getD_set_ne arr pos c _ (by omega)] at h1
    have h2 := coe_set_add arr pos (arr.getD c 0) hposarr
    have h3 := coe_set_add arr pos d hposarr
    rw [← hM d]
    have key :
        (((arr.set pos (arr.getD c 0)).set c d : List ℚ) : Multiset ℚ)
            + ({arr.getD c 0} + {arr.getD pos 0})
          = ((arr.set pos d : List ℚ) : Multiset ℚ)
            + ({arr.getD c 0} + {arr.getD pos 0}) := by
      calc (((arr.set pos (arr.getD c 0)).set c d : List ℚ) : Multiset ℚ)
            + ({arr.getD c 0} + {arr.getD pos 0})
          = ((((arr.set pos (arr.getD c 0)).set c d : List ℚ) : Multiset ℚ)
              + {arr.getD c 0}) + {arr.getD pos 0} := by
            rw [add_assoc]
        _ = (((arr.set pos (arr.getD c 0) : List ℚ) : Multiset ℚ) + {d})
              + {arr.getD pos 0} := by rw [h1]
        _ = (((arr.set pos (arr.getD c 0) : List ℚ) : Multiset ℚ)
              + {arr.getD pos 0}) + {d} := by rw [add_right_comm]
        _ = (((arr : List ℚ) : Multiset ℚ) + {arr.getD c 0}) + {d} := by
            rw [h2]
        _ = (((arr : List ℚ) : Multiset ℚ) + {d}) + {arr.getD c 0} := by
            rw [add_right_comm]
        _ = (((arr.set pos d : List ℚ) : Multiset ℚ) + {arr.getD pos 0})
              + {arr.getD c 0} := by rw [h3]
        _ = ((arr.set pos d : List ℚ) : Multiset ℚ)
              + ({arr.getD c 0} + {arr.getD pos 0}) := by
            rw [add_assoc, add_comm ({arr.getD pos 0} : Multiset ℚ)]
    exact add_right_cancel key

end heapq

namespace heapq

/-- Full specification of the `_siftup` down-phase loop, for any sufficient
fuel: the hole travels to a leaf of the subtree of `s`, the array stays a
permutation of `A` "with the hole carried along", and the heap invariant
holds everywhere from level `s` except at the hole. -/
theorem siftupDown_spec (A : List ℚ) (s : Nat) :
    ∀ (fuel pos : Nat) (arr : List ℚ),
      arr.length = A.length →
      A.length ≤ fuel + pos →
      pos < A.length →
      InSubtree s pos →
      HeapExceptAt arr s pos →
      (pos ≠ s → ∀ j, (j = 2 * pos + 1 ∨ j = 2 * pos + 2) → j < A.length →
        arr.getD ((pos - 1) / 2) 0 ≤ arr.getD j 0) →
      (∀ d : ℚ, ((arr.set pos d : List ℚ) : Multiset ℚ)
        = ((A.set s d : List ℚ) : Multiset ℚ)) →
      (siftupDown fuel pos arr).1.length = A.length ∧
      (siftupDown fuel pos arr).2 < A.length ∧
      InSubtree s (siftupDown fuel pos arr).2 ∧
      A.length ≤ 2 * (siftupDown fuel pos arr).2 + 1 ∧
      HeapExceptAt (siftupDown fuel pos arr).1 s (siftupDown fuel pos arr).2 ∧
      (∀ d : ℚ,
        (((siftupDown fuel pos arr).1.set (siftupDown fuel pos arr).2 d :
          List ℚ) : Multiset ℚ) = ((A.set s d : List ℚ) : Multiset ℚ)) := by
  intro fuel
  induction fuel with
  | zero => intro pos arr hlen hfuel hpos _ _ _ _; omega
  | succ fuel ih =>
    intro pos arr hlen hfuel hpos hsub hHE hbr hM
    simp only [siftupDown]
    by_cases hguard : 2 * pos + 1 < arr.length
    · rw [if_pos hguard]
      by_cases hcc : 2 * pos + 1 + 1 < arr.length ∧
          ¬ (arr.getD (2 * pos + 1) 0 < arr.getD (2 * pos + 1 + 1) 0)
      · rw [if_pos hcc]
        have hcl : 2 * pos + 1 + 1 < A.length := by rw [← hlen]; exact hcc.1
        have hmin : ∀ j, (j = 2 * pos + 1 ∨ j = 2 * pos + 2) →
            j ≠ 2 * pos + 1 + 1 → j < A.length →
            arr.getD (2 * pos + 1 + 1) 0 ≤ arr.getD j 0 := by
          intro j hedge hne _
          have hj : j = 2 * pos + 1 := by omega
          rw [hj]
          exact le_of_not_lt hcc.2
        obtain ⟨l1, l2, l3, l4, l5⟩ := siftupDown_step A arr s pos
          (2 * pos + 1 + 1) hlen hpos hsub hHE hbr hM (Or.inr (by omega))
          hcl hmin
        exact ih (2 * pos + 1 + 1) _ l1 (by omega) hcl l2 l3 l4 l5
      · rw [if_neg hcc]
        have hcl : 2 * pos + 1 < A.length := by rw [← hlen]; exact hguard
        have hmin : ∀ j, (j = 2 * pos + 1 ∨ j = 2 * pos + 2) →
            j ≠ 2 * pos + 1 → j < A.length →
            arr.getD (2 * pos + 1) 0 ≤ arr.getD j 0 := by
          intro j hedge hne hjlen
          have hj : j = 2 * pos + 1 + 1 := by omega
          have hlt : arr.getD (2 * pos + 1) 0 < arr.getD (2 * pos + 1 + 1) 0 := by
            by_contra hcon
            exact hcc ⟨by rw [hlen]; omega, hcon⟩
          rw [hj]
          exact le_of_lt hlt
        obtain ⟨l1, l2, l3, l4, l5⟩ := siftupDown_step A arr s pos
          (2 * pos + 1) hlen hpos hsub hHE hbr hM (Or.inl rfl) hcl hmin
        exact ih (2 * pos + 1) _ l1 (by omega) hcl l2 l3 l4 l5
    · rw [if_neg hguard]
      refine ⟨hlen, hpos, hsub, by omega, hHE, hM⟩

end heapq

namespace heapq

/-- Moving the value at `c` into the hole at `pos` moves the hole to `c`
without changing the multiset "array with the hole filled". -/
theorem set_hole_move (A arr : List ℚ) (s pos c : Nat)
    (hlen : arr.length = A.length) (hpos : pos < A.length)
    (hcl : c < A.length) (hne : pos ≠ c)
    (hM : ∀ d : ℚ, ((arr.set pos d : List ℚ) : Multiset ℚ)
      = ((A.set s d : List ℚ) : Multiset ℚ)) :
    ∀ d : ℚ, (((arr.set pos (arr.getD c 0)).set c d : List ℚ) : Multiset ℚ)
      = ((A.set s d : List ℚ) : Multiset ℚ) := by
  have hposarr : pos < arr.length := by rw [hlen]; exact hpos
  intro d
  have h1 := coe_set_add (arr.set pos (arr.getD c 0)) c d
    (by rw [List.length_set, hlen]; exact hcl)
  rw [getD_set_ne arr pos c _ hne] at h1
  have h2 := coe_set_add arr pos (arr.getD c 0) hposarr
  have h3 := coe_set_add arr pos d hposarr
  rw [← hM d]
  have key :
      (((arr.set pos (arr.getD c 0)).set c d : List ℚ) : Multiset ℚ)
          + ({arr.getD c 0} + {arr.getD pos 0})
        = ((arr.set pos d : List ℚ) : Multiset ℚ)
          + ({arr.getD c 0} + {arr.getD pos 0}) := by
    calc (((arr.set pos (arr.getD c 0)).set c d : List ℚ) : Multiset ℚ)
          + ({arr.getD c 0} + {arr.getD pos 0})
        = ((((arr.set pos (arr.getD c 0)).set c d : List ℚ) : Multiset ℚ)
            + {arr.getD c 0}) + {arr.getD pos 0} := by
          rw [add_assoc]
      _ = (((arr.set pos (arr.getD c 0) : List ℚ) : Multiset ℚ) + {d})
            + {arr.getD pos 0} := by rw [h1]
      _ = (((arr.set pos (arr.getD c 0) : List ℚ) : Multiset ℚ)
            + {arr.getD pos 0}) + {d} := by rw [add_right_comm]
      _ = (((arr : List ℚ) : Multiset ℚ) + {arr.getD c 0}) + {d} := by
          rw [h2]
      _ = (((arr : List ℚ) : Multiset ℚ) + {d}) + {arr.getD c 0} := by
          rw [add_right_comm]
      _ = (((arr.set pos d : List ℚ) : Multiset ℚ) + {arr.getD pos 0})
            + {arr.getD c 0} := by rw [h3]
      _ = ((arr.set pos d : List ℚ) : Multiset ℚ)
            + ({arr.getD c 0} + {arr.getD pos 0}) := by
          rw [add_assoc, add_comm ({arr.getD pos 0} : Multiset ℚ)]
  exact add_right_cancel key

/-- When the `_siftdown` while-loop stops, writing `newitem` into the hole
yields a heap from level `s` on. -/
theorem siftdownUp_exit (A arr : List ℚ) (s pos : Nat) (newitem : ℚ)
    (hlen : arr.length = A.length) (hpos : pos < A.length)
    (hHE : HeapExceptAt arr s pos)
    (hU2 : ∀ j, (j = 2 * pos + 1 ∨ j = 2 * pos + 2) → j < A.length →
      newitem ≤ arr.getD j 0)
    (hstop : pos = s ∨ arr.getD ((pos - 1) / 2) 0 ≤ newitem) :
    IsHeapFrom (arr.set pos newitem) s := by
  intro i j hi hedge hjlen
  rw [List.length_set, hlen] at hjlen
  by_cases hjp : j = pos
  · have hi2 : i = (pos - 1) / 2 := by rcases hedge with h | h <;> omega
    have hilt : i < pos := by rcases hedge with h | h <;> omega
    rcases hstop with h | h
    · omega
    · rw [hjp, getD_set_ne arr pos i newitem (by omega),
        getD_set_self arr pos newitem (by rw [hlen]; exact hpos), hi2]
      exact h
  · by_cases hip : i = pos
    · rw [hip, getD_set_self arr pos newitem (by rw [hlen]; exact hpos),
        getD_set_ne arr pos j _ (fun h => hjp h.symm)]
      refine hU2 j ?_ hjlen
      rw [← hip]; exact hedge
    · rw [getD_set_ne arr pos i _ (fun h => hip h.symm),
        getD_set_ne arr pos j _ (fun h => hjp h.symm)]
      exact hHE i j hi hedge (by rw [hlen]; exact hjlen) hip hjp

/-- Effect of one iteration of the `_siftdown` while-loop: shifting the
parent value down into the hole re-establishes every invariant with the
hole now at the parent position. -/
theorem siftdownUp_step (A arr : List ℚ) (s pos : Nat) (newitem : ℚ)
    (hlen : arr.length = A.length) (hpos : pos < A.length)
    (hsub : InSubtree s pos) (hg : s < pos)
    (hHE : HeapExceptAt arr s pos)
    (hU2 : ∀ j, (j = 2 * pos + 1 ∨ j = 2 * pos + 2) → j < A.length →
      newitem ≤ arr.getD j 0)
    (hbr : pos ≠ s → ∀ j, (j = 2 * pos + 1 ∨ j = 2 * pos + 2) →
      j < A.length → arr.getD ((pos - 1) / 2) 0 ≤ arr.getD j 0)
    (hM : ∀ d : ℚ, ((arr.set pos d : List ℚ) : Multiset ℚ)
      = ((A.set s d : List ℚ) : Multiset ℚ))
    (hlt : newitem < arr.getD ((pos - 1) / 2) 0) :
    (arr.set pos (arr.getD ((pos - 1) / 2) 0)).length = A.length ∧
    (pos - 1) / 2 < A.length ∧
    InSubtree s ((pos - 1) / 2) ∧
    HeapExceptAt (arr.set pos (arr.getD ((pos - 1) / 2) 0)) s ((pos - 1) / 2) ∧
    (∀ j, (j = 2 * ((pos - 1) / 2) + 1 ∨ j = 2 * ((pos - 1) / 2) + 2) →
      j < A.length →
      newitem ≤ (arr.set pos (arr.getD ((pos - 1) / 2) 0)).getD j 0) ∧
    ((pos - 1) / 2 ≠ s → ∀ j,
      (j = 2 * ((pos - 1) / 2) + 1 ∨ j = 2 * ((pos - 1) / 2) + 2) →
      j < A.length →
      (arr.set pos (arr.getD ((pos - 1) / 2) 0)).getD
          (((pos - 1) / 2 - 1) / 2) 0
        ≤ (arr.set pos (arr.getD ((pos - 1) / 2) 0)).getD j 0) ∧
    (∀ d : ℚ,
      (((arr.set pos (arr.getD ((pos - 1) / 2) 0)).set ((pos - 1) / 2) d :
        List ℚ) : Multiset ℚ) = ((A.set s d : List ℚ) : Multiset ℚ)) := by
  have hposarr : pos < arr.length := by rw [hlen]; exact hpos
  have hpos1 : 1 ≤ pos := by omega
  have hppos : (pos - 1) / 2 < pos := by omega
  have hedgep : pos = 2 * ((pos - 1) / 2) + 1 ∨ pos = 2 * ((pos - 1) / 2) + 2 := by
    omega
  have hsubp : InSubtree s ((pos - 1) / 2) := hsub.parent (by omega)
  have hsp : s ≤ (pos - 1) / 2 := hsubp.le
  refine ⟨by rw [List.length_set, hlen], by omega, hsubp, ?_, ?_, ?_, ?_⟩
  · -- heap invariant except at the new hole, the parent position
    intro i j hi hedge hjlen hip hjp
    rw [List.length_set, hlen] at hjlen
    by_cases hjq : j = pos
    · have : i = (pos - 1) / 2 := by rcases hedge with h | h <;> omega
      exact absurd this hip
    · by_cases hiq : i = pos
      · rw [hiq, getD_set_self arr pos _ hposarr,
          getD_set_ne arr pos j _ (fun h => hjq h.symm)]
        refine hbr (by omega) j ?_ hjlen
        rw [← hiq]; exact hedge
      · rw [getD_set_ne arr pos i _ (fun h => hiq h.symm),
          getD_set_ne arr pos j _ (fun h => hjq h.symm)]
        exact hHE i j hi hedge (by rw [hlen]; exact hjlen) hiq hjq
  · -- `newitem` is below both children of the new hole
    intro j hedge hjlen
    by_cases hjq : j = pos
    · rw [hjq, getD_set_self arr pos _ hposarr]
      exact le_of_lt hlt
    · rw [getD_set_ne arr pos j _ (fun h => hjq h.symm)]
      have hle : arr.getD ((pos - 1) / 2) 0 ≤ arr.getD j 0 :=
        hHE ((pos - 1) / 2) j hsp hedge (by rw [hlen]; exact hjlen)
          (by omega) hjq
      exact le_of_lt (lt_of_lt_of_le hlt hle)
  · -- bridge at the new hole
    intro hps j hedge hjlen
    have hp1 : 1 ≤ (pos - 1) / 2 := by
      have := hsubp.le
      omega
    have hgp : ((pos - 1) / 2 - 1) / 2 < (pos - 1) / 2 := by omega
    have hgpedge : (pos - 1) / 2 = 2 * (((pos - 1) / 2 - 1) / 2) + 1 ∨
        (pos - 1) / 2 = 2 * (((pos - 1) / 2 - 1) / 2) + 2 := by omega
    have hsgp : s ≤ ((pos - 1) / 2 - 1) / 2 := (hsubp.parent hps).le
    have hgpq : ((pos - 1) / 2 - 1) / 2 ≠ pos := by omega
    have hgple : arr.getD (((pos - 1) / 2 - 1) / 2) 0
        ≤ arr.getD ((pos - 1) / 2) 0 :=
      hHE (((pos - 1) / 2 - 1) / 2) ((pos - 1) / 2) hsgp hgpedge
        (by rw [hlen]; omega) hgpq (by omega)
    rw [getD_set_ne arr pos (((pos - 1) / 2 - 1) / 2) _ (by omega)]
    by_cases hjq : j = pos
    · rw [hjq, getD_set_self arr pos _ hposarr]
      exact hgple
    · rw [getD_set_ne arr pos j _ (fun h => hjq h.symm)]
      refine le_trans hgple
        (hHE ((pos - 1) / 2) j hsp hedge (by rw [hlen]; exact hjlen)
          (by omega) hjq)
  · exact set_hole_move A arr s pos ((pos - 1) / 2) hlen hpos (by omega)
      (by omega) hM

end heapq

namespace heapq

/-- Full specification of the `_siftdown` while-loop, for any sufficient
fuel: filling the final hole with `newitem` yields a heap from level `s`,
and the array with the hole filled stays the expected permutation. -/
theorem siftdownUp_spec (A : List ℚ) (s : Nat) (newitem : ℚ) :
    ∀ (fuel pos : Nat) (arr : List ℚ),
      arr.length = A.length →
      pos ≤ fuel →
      pos < A.length →
      InSubtree s pos →
      HeapExceptAt arr s pos →
      (∀ j, (j = 2 * pos + 1 ∨ j = 2 * pos + 2) → j < A.length →
        newitem ≤ arr.getD j 0) →
      (pos ≠ s → ∀ j, (j = 2 * pos + 1 ∨ j = 2 * pos + 2) → j < A.length →
        arr.getD ((pos - 1) / 2) 0 ≤ arr.getD j 0) →
      (∀ d : ℚ, ((arr.set pos d : List ℚ) : Multiset ℚ)
        = ((A.set s d : List ℚ) : Multiset ℚ)) →
      (siftdownUp fuel s newitem pos arr).1.length = A.length ∧
      (siftdownUp fuel s newitem pos arr).2 < A.length ∧
      IsHeapFrom ((siftdownUp fuel s newitem pos arr).1.set
        (siftdownUp fuel s newitem pos arr).2 newitem) s ∧
      (∀ d : ℚ, (((siftdownUp fuel s newitem pos arr).1.set
          (siftdownUp fuel s newitem pos arr).2 d : List ℚ) : Multiset ℚ)
        = ((A.set s d : List ℚ) : Multiset ℚ)) := by
  intro fuel
  induction fuel with
  | zero =>
    intro pos arr hlen hfuel hpos hsub hHE hU2 _ hM
    have hps : pos = s := by
      have := hsub.le
      omega
    simp only [siftdownUp]
    exact ⟨hlen, hpos,
      siftdownUp_exit A arr s pos newitem hlen hpos hHE hU2 (Or.inl hps), hM⟩
  | succ fuel ih =>
    intro pos arr hlen hfuel hpos hsub hHE hU2 hbr hM
    simp only [siftdownUp]
    by_cases hg : s < pos
    · rw [if_pos hg]
      by_cases hlt : newitem < arr.getD ((pos - 1) / 2) 0
      · rw [if_pos hlt]
        obtain ⟨l1, l2, l3, l4, l5, l6, l7⟩ := siftdownUp_step A arr s pos
          newitem hlen hpos hsub hg hHE hU2 hbr hM hlt
        exact ih ((pos - 1) / 2) _ l1 (by omega) l2 l3 l4 l5 l6 l7
      · rw [if_neg hlt]
        exact ⟨hlen, hpos,
          siftdownUp_exit A arr s pos newitem hlen hpos hHE hU2
            (Or.inr (le_of_not_lt hlt)), hM⟩
    · have hps : pos = s := by
        have := hsub.le
        omega
      rw [if_neg hg]
      exact ⟨hlen, hpos,
        siftdownUp_exit A arr s pos newitem hlen hpos hHE hU2 (Or.inl hps),
        hM⟩

end heapq

namespace heapq

/-- Specification of `_siftdown` when called with the value `newitem`
sitting in the hole at `pos` (exactly how `_siftup` calls it). -/
theorem siftdown_spec (A : List ℚ) (s : Nat) (arr : List ℚ) (pos : Nat)
    (newitem : ℚ)
    (hlen : arr.length = A.length) (hpos : pos < A.length)
    (hsub : InSubtree s pos)
    (hval : arr.getD pos 0 = newitem)
    (hHE : HeapExceptAt arr s pos)
    (hU2 : ∀ j, (j = 2 * pos + 1 ∨ j = 2 * pos + 2) → j < A.length →
      newitem ≤ arr.getD j 0)
    (hbr : pos ≠ s → ∀ j, (j = 2 * pos + 1 ∨ j = 2 * pos + 2) →
      j < A.length → arr.getD ((pos - 1) / 2) 0 ≤ arr.getD j 0)
    (hM : ∀ d : ℚ, ((arr.set pos d : List ℚ) : Multiset ℚ)
      = ((A.set s d : List ℚ) : Multiset ℚ)) :
    (siftdown arr s pos).length = A.length ∧
    IsHeapFrom (siftdown arr s pos) s ∧
    ((siftdown arr s pos : List ℚ) : Multiset ℚ)
      = ((A.set s newitem : List ℚ) : Multiset ℚ) := by
  simp only [siftdown]
  rw [hval]
  obtain ⟨u1, u2, u3, u4⟩ := siftdownUp_spec A s newitem pos pos arr hlen
    (Nat.le_refl pos) hpos hsub hHE hU2 hbr hM
  exact ⟨by rw [List.length_set]; exact u1, u3, u4 newitem⟩

/-- Main specification of `heapq._siftup`: called at `s` on an array whose
levels strictly below `s` are already heap-ordered, it heap-orders
everything from level `s` on and permutes the array. -/
theorem siftup_spec (A : List ℚ) (s : Nat) (hs : s < A.length)
    (hpre : IsHeapFrom A (s + 1)) :
    (siftup A s).length = A.length ∧
    IsHeapFrom (siftup A s) s ∧
    ((siftup A s : List ℚ) : Multiset ℚ) = (A : Multiset ℚ) := by
  have hHE0 : HeapExceptAt A s s := by
    intro i j hi hedge hjlen hip _
    exact hpre i j (by omega) hedge hjlen
  obtain ⟨d1, d2, d3, d4, d5, d6⟩ := siftupDown_spec A s A.length s A rfl
    (Nat.le_add_right _ _) hs InSubtree.refl hHE0
    (fun h => absurd rfl h) (fun d => rfl)
  have hposr : (siftupDown A.length s A).2 < (siftupDown A.length s A).1.length := by
    rw [d1]; exact d2
  have harr1len : ((siftupDown A.length s A).1.set (siftupDown A.length s A).2
      (A.getD s 0)).length = A.length := by
    rw [List.length_set]; exact d1
  have hval : ((siftupDown A.length s A).1.set (siftupDown A.length s A).2
      (A.getD s 0)).getD (siftupDown A.length s A).2 0 = A.getD s 0 :=
    getD_set_self _ _ _ hposr
  have hHE1 : HeapExceptAt ((siftupDown A.length s A).1.set
      (siftupDown A.length s A).2 (A.getD s 0)) s (siftupDown A.length s A).2 := by
    intro i j hi hedge hjlen hip hjp
    rw [List.length_set] at hjlen
    rw [getD_set_ne _ _ i _ (fun h => hip h.symm),
      getD_set_ne _ _ j _ (fun h => hjp h.symm)]
    exact d5 i j hi hedge hjlen hip hjp
  have hU2 : ∀ j, (j = 2 * (siftupDown A.length s A).2 + 1 ∨
      j = 2 * (siftupDown A.length s A).2 + 2) → j < A.length →
      A.getD s 0 ≤ ((siftupDown A.length s A).1.set
        (siftupDown A.length s A).2 (A.getD s 0)).getD j 0 := by
    intro j hedge hjlen
    exact absurd hjlen (by omega)
  have hbr : (siftupDown A.length s A).2 ≠ s → ∀ j,
      (j = 2 * (siftupDown A.length s A).2 + 1 ∨
       j = 2 * (siftupDown A.length s A).2 + 2) → j < A.length →
      ((siftupDown A.length s A).1.set (siftupDown A.length s A).2
        (A.getD s 0)).getD (((siftupDown A.length s A).2 - 1) / 2) 0
      ≤ ((siftupDown A.length s A).1.set (siftupDown A.length s A).2
        (A.getD s 0)).getD j 0 := by
    intro _ j hedge hjlen
    exact absurd hjlen (by omega)
  have hM1 : ∀ d : ℚ, ((((siftupDown A.length s A).1.set
      (siftupDown A.length s A).2 (A.getD s 0)).set
      (siftupDown A.length s A).2 d : List ℚ) : Multiset ℚ)
      = ((A.set s d : List ℚ) : Multiset ℚ) := by
    intro d
    rw [List.set_set]
    exact d6 d
  obtain ⟨e1, e2, e3⟩ := siftdown_spec A s _ (siftupDown A.length s A).2
    (A.getD s 0) harr1len d2 d3 hval hHE1 hU2 hbr hM1
  simp only [siftup]
  exact ⟨e1, e2, by rw [e3, set_getD_self A s hs]⟩

end heapq

theorem getD_eq_getElem_of_lt (l : List ℚ) (n : Nat) (hn : n < l.length) :
    l.getD n 0 = l[n] := by
  rw [List.getD_eq_getElem?_getD, List.getElem?_eq_getElem hn]
  rfl

theorem getD_dropLast (l : List ℚ) (n : Nat) (hn : n < l.dropLast.length) :
    l.dropLast.getD n 0 = l.getD n 0 := by
  have hn2 : n < l.length := by
    rw [List.length_dropLast] at hn
    omega
  rw [getD_eq_getElem_of_lt _ _ hn, getD_eq_getElem_of_lt _ _ hn2]
  exact List.getElem_dropLast l n hn

namespace heapq

/-- Invariant of the `heapify` loop: running the remaining `k` calls of
`_siftup` on an array already heap-ordered from level `k` yields a full
heap and a permutation. -/
theorem heapifyLoop_spec (x : List ℚ) : ∀ (k : Nat) (h : List ℚ),
    h.length = x.length → k ≤ x.length → IsHeapFrom h k →
    (heapifyLoop k h).length = x.length ∧ IsHeap (heapifyLoop k h) ∧
    ((heapifyLoop k h : List ℚ) : Multiset ℚ) = (h : Multiset ℚ) := by
  intro k
  induction k with
  | zero => exact fun h hlen _ hinv => ⟨hlen, hinv, rfl⟩
  | succ k ih =>
    intro h hlen hk hinv
    have hs : k < h.length := by omega
    obtain ⟨s1, s2, s3⟩ := siftup_spec h k hs hinv
    have := ih (siftup h k) (by rw [s1]; exact hlen) (by omega) s2
    simp only [heapifyLoop]
    exact ⟨this.1, this.2.1, by rw [this.2.2, s3]⟩

/-- Specification of `heapq.heapify`: the result is a permutation of the
input satisfying the heap invariant. -/
theorem heapify_spec (x : List ℚ) :
    (heapify x).length = x.length ∧ IsHeap (heapify x) ∧
    ((heapify x : List ℚ) : Multiset ℚ) = (x : Multiset ℚ) := by
  apply heapifyLoop_spec x (x.length / 2) x rfl (Nat.div_le_self _ _)
  intro i j hi hedge hjlen
  exact absurd hjlen (by rcases hedge with h | h <;> omega)

/-- In a heap the root is a lower bound for every entry. -/
theorem IsHeap.le_of_lt_length (l : List ℚ) (hl : IsHeap l) :
    ∀ j, j < l.length → l.getD 0 0 ≤ l.getD j 0 := by
  intro j
  induction j using Nat.strong_induction_on with
  | _ j ih =>
    intro hj
    rcases Nat.eq_zero_or_pos j with rfl | hpos
    · exact le_refl _
    · have hedge : j = 2 * ((j - 1) / 2) + 1 ∨ j = 2 * ((j - 1) / 2) + 2 := by
        omega
      exact le_trans (ih ((j - 1) / 2) (by omega) (by omega))
        (hl ((j - 1) / 2) j (Nat.zero_le _) hedge hj)

/-- In a heap the root is a lower bound for every member. -/
theorem IsHeap.le_of_mem (l : List ℚ) (hl : IsHeap l) (x : ℚ) (hx : x ∈ l) :
    l.getD 0 0 ≤ x := by
  obtain ⟨n, hn, rfl⟩ := List.mem_iff_getElem.mp hx
  rw [← getD_eq_getElem_of_lt l n hn]
  exact IsHeap.le_of_lt_length l hl n hn

end heapq

namespace heapq

/-- Specification of `heapq.heappop` on a nonempty heap: it returns the
root (the minimum), and the new state is a heap one element shorter whose
multiset is the old one minus that root. -/
theorem heappop_spec (l : List ℚ) (hne : l ≠ []) (hl : IsHeap l) :
    ∃ rest, heappop l = some (l.getD 0 0, rest) ∧ IsHeap rest ∧
      ((rest : List ℚ) : Multiset ℚ) + {l.getD 0 0} = (l : Multiset ℚ) ∧
      rest.length + 1 = l.length := by
  have hlast := List.getLast?_eq_getLast l hne
  have hsplit : l.dropLast ++ [l.getLast hne] = l :=
    List.dropLast_concat_getLast hne
  by_cases hrest : l.dropLast.isEmpty = true
  · have hd : l.dropLast = [] := List.isEmpty_iff.mp hrest
    have hlist : l = [l.getLast hne] := by
      conv_lhs => rw [← hsplit]
      rw [hd]
      rfl
    have hval : l.getD 0 0 = l.getLast hne := by
      conv_lhs => rw [hlist]
      rfl
    refine ⟨[], ?_, ?_, ?_, ?_⟩
    · simp only [heappop, hlast, hd, hval, List.isEmpty_nil, if_pos]
    · intro i j _ _ hjlen
      exact absurd hjlen (by simp)
    · rw [hval]
      conv_rhs => rw [hlist]
      simp
    · rw [hlist]
      rfl
  · have hd : l.dropLast ≠ [] := fun h => hrest (by rw [h]; rfl)
    have hdl : 0 < l.dropLast.length := List.length_pos.mpr hd
    have hll : l.dropLast.length = l.length - 1 := List.length_dropLast l
    have h0arr : 0 < (l.dropLast.set 0 (l.getLast hne)).length := by
      rw [List.length_set]
      exact hdl
    have hpre : IsHeapFrom (l.dropLast.set 0 (l.getLast hne)) 1 := by
      intro i j hi hedge hjlen
      rw [List.length_set] at hjlen
      have hij : i < j := by rcases hedge with h | h <;> omega
      rw [getD_set_ne _ 0 i _ (by omega), getD_set_ne _ 0 j _ (by omega),
        getD_dropLast l i (by omega), getD_dropLast l j hjlen]
      exact hl i j (Nat.zero_le _) hedge (by omega)
    obtain ⟨s1, s2, s3⟩ := siftup_spec (l.dropLast.set 0 (l.getLast hne)) 0
      h0arr hpre
    have hga : l.dropLast.getD 0 0 = l.getD 0 0 := getD_dropLast l 0 hdl
    refine ⟨siftup (l.dropLast.set 0 (l.getLast hne)) 0, ?_, s2, ?_, ?_⟩
    · simp only [heappop, hlast, hrest, if_neg, hga, Bool.false_eq_true,
        not_false_eq_true]
    · have hadd := coe_set_add l.dropLast 0 (l.getLast hne) hdl
      rw [s3, ← hga, hadd, ← Multiset.coe_singleton, Multiset.coe_add, hsplit]
    · rw [s1, List.length_set, hll]
      omega

end heapq

/-! Facts about `sortQ`, the model of Python `sorted`. -/

theorem sortQ_sorted (L : List ℚ) : (sortQ L).Sorted (· ≤ ·) :=
  List.sorted_insertionSort _ _

theorem sortQ_perm (L : List ℚ) : (sortQ L).Perm L :=
  List.perm_insertionSort _ _

theorem coe_sortQ (L : List ℚ) : ((sortQ L : List ℚ) : Multiset ℚ) = L :=
  Multiset.coe_eq_coe.mpr (sortQ_perm L)

theorem sortQ_length (L : List ℚ) : (sortQ L).length = L.length :=
  (sortQ_perm L).length_eq

theorem sorted_head_le (T : List ℚ) (hT : T.Sorted (· ≤ ·)) (x : ℚ)
    (hx : x ∈ T) : T.getD 0 0 ≤ x := by
  cases T with
  | nil => exact absurd hx (List.not_mem_nil x)
  | cons t ts =>
    rcases List.mem_cons.mp hx with rfl | hmem
    · exact le_refl x
    · exact (List.sorted_cons.mp hT).1 x hmem

theorem getD_drop (l : List ℚ) (i : Nat) (hi : i < l.length) :
    (l.drop i).getD 0 0 = l.getD i 0 := by
  have h0 : 0 < (l.drop i).length := by
    rw [List.length_drop]
    omega
  rw [getD_eq_getElem_of_lt _ 0 h0, getD_eq_getElem_of_lt l i hi,
    List.getElem_drop]
  simp

namespace heapq

/-- Popping a heap whose contents are those of the sorted list `T` returns
the head of `T` and leaves a heap with the contents of `T.tail`. -/
theorem heappop_sorted (h T : List ℚ) (hh : IsHeap h)
    (hT : T.Sorted (· ≤ ·)) (hext : (h : Multiset ℚ) = (T : Multiset ℚ))
    (hne : T ≠ []) :
    ∃ rest, heappop h = some (T.getD 0 0, rest) ∧ IsHeap rest ∧
      ((rest : List ℚ) : Multiset ℚ) = ((T.tail : List ℚ) : Multiset ℚ) ∧
      rest.length = T.tail.length := by
  have hhne : h ≠ [] := by
    intro he
    rw [he] at hext
    exact hne (List.perm_nil.mp (Multiset.coe_eq_coe.mp hext.symm))
  have hlenpos : 0 < h.length := List.length_pos.mpr hhne
  obtain ⟨rest, hpop, hrh, hradd, hrlen⟩ := heappop_spec h hhne hh
  have hmmem : h.getD 0 0 ∈ h := by
    rw [getD_eq_getElem_of_lt h 0 hlenpos]
    exact List.getElem_mem hlenpos
  have hmT : h.getD 0 0 ∈ T :=
    Multiset.mem_coe.mp (hext ▸ Multiset.mem_coe.mpr hmmem)
  have hheadT : T.getD 0 0 ∈ T := by
    cases T with
    | nil => exact absurd rfl hne
    | cons t ts => exact List.mem_cons_self t ts
  have hheadh : T.getD 0 0 ∈ h :=
    Multiset.mem_coe.mp (hext ▸ Multiset.mem_coe.mpr hheadT)
  have hm : h.getD 0 0 = T.getD 0 0 :=
    le_antisymm (IsHeap.le_of_mem h hh _ hheadh) (sorted_head_le T hT _ hmT)
  have hTsplit : T.getD 0 0 :: T.tail = T := by
    cases T with
    | nil => exact absurd rfl hne
    | cons t ts => rfl
  refine ⟨rest, by rw [← hm]; exact hpop, hrh, ?_, ?_⟩
  · have hcons : (T : Multiset ℚ) = T.getD 0 0 ::ₘ (T.tail : Multiset ℚ) := by
      conv_lhs => rw [← hTsplit]
      rw [← Multiset.cons_coe]
    rw [hm] at hradd
    rw [hext, hcons, ← Multiset.singleton_add, add_comm] at hradd
    exact add_left_cancel hradd
  · have hcard : h.length = T.length := by
      have := congrArg Multiset.card hext
      rwa [Multiset.coe_card, Multiset.coe_card] at this
    have hTlen : 0 < T.length := List.length_pos.mpr hne
    have hTtail : T.tail.length = T.length - 1 := by
      cases T with
      | nil => exact absurd rfl hne
      | cons t ts => simp
    omega

/-- Popping `k` times from a heap with the contents of the sorted list `T`
leaves a heap with the contents of `T.drop k`. -/
theorem popN_sorted : ∀ (k : Nat) (h T : List ℚ), IsHeap h →
    T.Sorted (· ≤ ·) → (h : Multiset ℚ) = (T : Multiset ℚ) →
    k ≤ T.length →
    ∃ h2, perf.popN k h = some h2 ∧ IsHeap h2 ∧
      ((h2 : List ℚ) : Multiset ℚ) = ((T.drop k : List ℚ) : Multiset ℚ) ∧
      h2.length = T.length - k := by
  intro k
  induction k with
  | zero =>
    intro h T hh hT hext _
    refine ⟨h, rfl, hh, by rw [List.drop_zero]; exact hext, ?_⟩
    have := congrArg Multiset.card hext
    rw [Multiset.coe_card, Multiset.coe_card] at this
    omega
  | succ k ih =>
    intro h T hh hT hext hk
    cases T with
    | nil => simp at hk
    | cons t ts =>
      obtain ⟨rest, hpop, hrh, hrm, hrlen⟩ := heappop_sorted h (t :: ts) hh
        hT hext (by simp)
      have hts : ts.Sorted (· ≤ ·) := (List.sorted_cons.mp hT).2
      obtain ⟨h2, hpop2, hh2, hm2, hl2⟩ := ih rest ts hrh hts hrm
        (by simpa using hk)
      refine ⟨h2, ?_, hh2, hm2, by simpa using hl2⟩
      simp only [perf.popN, hpop, Option.bind_some]
      exact hpop2

end heapq

namespace perf

/-- What `sort_median` computes on a nonempty list: the entry of the sorted
order at index `len // 2`, with the caller's list untouched. -/
theorem sort_median_eq (L : List ℚ) (hne : L ≠ []) :
    sort_median L = some ((sortQ L).getD (L.length / 2) 0, L) := by
  have hpos : 0 < L.length := List.length_pos.mpr hne
  have hidx : L.length / 2 < (sortQ L).length := by
    rw [sortQ_length]
    omega
  simp only [sort_median]
  rw [List.getElem?_eq_getElem hidx, getD_eq_getElem_of_lt _ _ hidx]
  rfl

/-- What `heap_median` computes on a nonempty list: the same sorted-order
entry at index `len // 2`; the caller's list ends up as a heap holding
exactly the part of the sorted order strictly above that index. -/
theorem heap_median_eq (L : List ℚ) (hne : L ≠ []) :
    ∃ fin, heap_median L = some ((sortQ L).getD (L.length / 2) 0, fin) ∧
      heapq.IsHeap fin ∧
      ((fin : List ℚ) : Multiset ℚ)
        = (((sortQ L).drop (L.length / 2 + 1) : List ℚ) : Multiset ℚ) ∧
      fin.length = L.length - (L.length / 2 + 1) := by
  have hpos : 0 < L.length := List.length_pos.mpr hne
  obtain ⟨f1, f2, f3⟩ := heapq.heapify_spec L
  have hmult : ((heapq.heapify L : List ℚ) : Multiset ℚ)
      = ((sortQ L : List ℚ) : Multiset ℚ) := by
    rw [f3, coe_sortQ]
  have hslen : (sortQ L).length = L.length := sortQ_length L
  obtain ⟨h2, hpop, hh2, hm2, hl2⟩ := heapq.popN_sorted (L.length / 2)
    (heapq.heapify L) (sortQ L) f2 (sortQ_sorted L) hmult
    (by rw [hslen]; exact Nat.div_le_self _ _)
  have hdropsorted : ((sortQ L).drop (L.length / 2)).Sorted (· ≤ ·) :=
    List.Pairwise.sublist (List.drop_sublist _ _) (sortQ_sorted L)
  have hdroplen : ((sortQ L).drop (L.length / 2)).length
      = L.length - L.length / 2 := by
    rw [List.length_drop, hslen]
  have hdropne : (sortQ L).drop (L.length / 2) ≠ [] := by
    rw [← List.length_pos, hdroplen]
    omega
  obtain ⟨fin, hfpop, hfh, hfm, hfl⟩ := heapq.heappop_sorted h2
    ((sortQ L).drop (L.length / 2)) hh2 hdropsorted hm2 hdropne
  have hhead : ((sortQ L).drop (L.length / 2)).getD 0 0
      = (sortQ L).getD (L.length / 2) 0 :=
    getD_drop (sortQ L) (L.length / 2) (by rw [hslen]; omega)
  have htail : ((sortQ L).drop (L.length / 2)).tail
      = (sortQ L).drop (L.length / 2 + 1) := List.tail_drop _ _
  refine ⟨fin, ?_, hfh, by rw [hfm, htail], ?_⟩
  · simp only [heap_median, hpop, Option.bind_some]
    rw [← hhead]
    exact hfpop
  · rw [hfl, htail, List.length_drop, hslen]

end perf

/-- C1: for every non-empty list of numbers `L`, `sort_median L` and
`heap_median L` return the same value, namely the element of rank
`len(L) // 2` (0-indexed) in the sorted order of `L`. -/
theorem claim_C1 (L : List ℚ) (hne : L ≠ []) :
    (perf.sort_median L).map Prod.fst
      = some ((sortQ L).getD (L.length / 2) 0) ∧
    (perf.heap_median L).map Prod.fst
      = some ((sortQ L).getD (L.length / 2) 0) := by
  obtain ⟨fin, hm, _, _, _⟩ := perf.heap_median_eq L hne
  rw [perf.sort_median_eq L hne, hm]
  exact ⟨rfl, rfl⟩

/-- Witness for C1 at the concrete input `[3, 1, 2]`, whose sorted order is
`[1, 2, 3]` and whose rank-1 element is `2`. -/
theorem claim_C1_witness :
    (perf.sort_median [3, 1, 2]).map Prod.fst = some 2 ∧
    (perf.heap_median [3, 1, 2]).map Prod.fst = some 2 := by
  have h := claim_C1 [3, 1, 2] (List.cons_ne_nil _ _)
  have he : (sortQ [3, 1, 2]).getD (([3, 1, 2] : List ℚ).length / 2) 0 = 2 := by
    decide
  rwa [he] at h

/-- C2 counterexample: on the even-length list `[1, 2]` the two middle
elements of the sorted order are `1` and `2`, the smaller (the lower
median) is `1`, but both functions return `2`. -/
theorem claim_C2_counterexample :
    ¬ ((perf.sort_median [1, 2]).map Prod.fst
        = some (min ((sortQ [1, 2]).getD (([1, 2] : List ℚ).length / 2 - 1) 0)
            ((sortQ [1, 2]).getD (([1, 2] : List ℚ).length / 2) 0)) ∧
       (perf.heap_median [1, 2]).map Prod.fst
        = some (min ((sortQ [1, 2]).getD (([1, 2] : List ℚ).length / 2 - 1) 0)
            ((sortQ [1, 2]).getD (([1, 2] : List ℚ).length / 2) 0))) := by
  decide

/-- C2 as amended: on a non-empty even-length list both functions return the
upper median, the larger of the two middle elements of the sorted order. -/
theorem claim_C2 (L : List ℚ) (hne : L ≠ []) (heven : L.length % 2 = 0) :
    (perf.sort_median L).map Prod.fst
      = some (max ((sortQ L).getD (L.length / 2 - 1) 0)
          ((sortQ L).getD (L.length / 2) 0)) ∧
    (perf.heap_median L).map Prod.fst
      = some (max ((sortQ L).getD (L.length / 2 - 1) 0)
          ((sortQ L).getD (L.length / 2) 0)) := by
  have hpos : 0 < L.length := List.length_pos.mpr hne
  have hslen : (sortQ L).length = L.length := sortQ_length L
  have hidx2 : L.length / 2 < (sortQ L).length := by omega
  have hidx1 : L.length / 2 - 1 < (sortQ L).length := by omega
  have hle : (sortQ L).getD (L.length / 2 - 1) 0
      ≤ (sortQ L).getD (L.length / 2) 0 := by
    rw [getD_eq_getElem_of_lt _ _ hidx1, getD_eq_getElem_of_lt _ _ hidx2]
    exact List.pairwise_iff_getElem.mp (sortQ_sorted L) _ _ hidx1 hidx2
      (by omega)
  rw [max_eq_right hle]
  obtain ⟨fin, hm, _, _, _⟩ := perf.heap_median_eq L hne
  rw [perf.sort_median_eq L hne, hm]
  exact ⟨rfl, rfl⟩

/-- Witness for the amended C2 at the concrete even-length input `[1, 2]`. -/
theorem claim_C2_witness :
    (perf.sort_median [1, 2]).map Prod.fst
      = some (max ((sortQ [1, 2]).getD (([1, 2] : List ℚ).length / 2 - 1) 0)
          ((sortQ [1, 2]).getD (([1, 2] : List ℚ).length / 2) 0)) ∧
    (perf.heap_median [1, 2]).map Prod.fst
      = some (max ((sortQ [1, 2]).getD (([1, 2] : List ℚ).length / 2 - 1) 0)
          ((sortQ [1, 2]).getD (([1, 2] : List ℚ).length / 2) 0)) :=
  claim_C2 [1, 2] (List.cons_ne_nil _ _) (by decide)

/-- C3 counterexample: on `[1, …, 10]` neither function returns `5`. -/
theorem claim_C3_counterexample :
    (perf.sort_median [1, 2, 3, 4, 5, 6, 7, 8, 9, 10]).map Prod.fst
        ≠ some 5 ∧
    (perf.heap_median [1, 2, 3, 4, 5, 6, 7, 8, 9, 10]).map Prod.fst
        ≠ some 5 := by
  decide

/-- C3 as amended: on the 10-element sorted input `[1, …, 10]` both
functions return `6`, the element at 0-indexed position `10 // 2 = 5`. -/
theorem claim_C3 :
    (perf.sort_median [1, 2, 3, 4, 5, 6, 7, 8, 9, 10]).map Prod.fst
        = some 6 ∧
    (perf.heap_median [1, 2, 3, 4, 5, 6, 7, 8, 9, 10]).map Prod.fst
        = some 6 := by
  decide

/-- C10: `sort_median` leaves the caller's list unchanged, while
`heap_median` hands back a different list: heap-ordered, missing the
`len // 2 + 1` smallest elements of the sorted order. -/
theorem claim_C10 (L : List ℚ) (hne : L ≠ []) :
    (perf.sort_median L).map Prod.snd = some L ∧
    ∃ m fin, perf.heap_median L = some (m, fin) ∧
      fin.length = L.length - (L.length / 2 + 1) ∧
      fin ≠ L ∧
      heapq.IsHeap fin ∧
      ((fin : List ℚ) : Multiset ℚ)
        = (((sortQ L).drop (L.length / 2 + 1) : List ℚ) : Multiset ℚ) := by
  obtain ⟨fin, hm, hh, hmult, hlen⟩ := perf.heap_median_eq L hne
  have hpos : 0 < L.length := List.length_pos.mpr hne
  refine ⟨by rw [perf.sort_median_eq L hne]; rfl, _, fin, hm, hlen, ?_, hh,
    hmult⟩
  intro he
  have := congrArg List.length he
  omega

/-- Witness for C10 at the concrete input `[1, 2, 3]`. -/
theorem claim_C10_witness :
    (perf.sort_median [1, 2, 3]).map Prod.snd = some [1, 2, 3] ∧
    ∃ m fin, perf.heap_median [1, 2, 3] = some (m, fin) ∧
      fin.length = ([1, 2, 3] : List ℚ).length
        - (([1, 2, 3] : List ℚ).length / 2 + 1) ∧
      fin ≠ [1, 2, 3] ∧
      heapq.IsHeap fin ∧
      ((fin : List ℚ) : Multiset ℚ)
        = (((sortQ [1, 2, 3]).drop (([1, 2, 3] : List ℚ).length / 2 + 1) :
          List ℚ) : Multiset ℚ) :=
  claim_C10 [1, 2, 3] (List.cons_ne_nil _ _)

/-! Helpers for concrete data built from constant oracles. -/

theorem sorted_replicate (n : Nat) (a : ℚ) :
    (List.replicate n a).Sorted (· ≤ ·) := by
  induction n with
  | zero => exact List.sorted_nil
  | succ n ih =>
    rw [List.replicate_succ, List.sorted_cons]
    exact ⟨fun b hb => le_of_eq ((List.mem_replicate.mp hb).2.symm), ih⟩

theorem sortQ_eq_of_sorted (l : List ℚ) (h : l.Sorted (· ≤ ·)) :
    sortQ l = l := List.Sorted.insertionSort_eq h

theorem map_const_range (n : Nat) (c : ℚ) :
    (List.range n).map (fun _ => c) = List.replicate n c := by
  rw [show (fun _ => c) = Function.const Nat c from rfl, List.map_const,
    List.length_range]

theorem getD_replicate (n m : Nat) (a : ℚ) (h : m < n) :
    (List.replicate n a).getD m 0 = a := by
  rw [getD_eq_getElem_of_lt _ _ (by rw [List.length_replicate]; exact h),
    List.getElem_replicate]

theorem getElem?_replicate_of_lt (n m : Nat) (a : ℚ) (h : m < n) :
    (List.replicate n a)[m]? = some a := by
  rw [List.getElem?_eq_getElem (by rw [List.length_replicate]; exact h),
    List.getElem_replicate]

namespace accuracy

theorem experimental_data_uniform (mode : String) (len : Nat)
    (u g e : Nat → ℚ) (h : pyLower mode = "uniform") :
    experimental_data mode len u g e = .ok ((List.range len).map u) := by
  rw [experimental_data, if_pos h]

theorem experimental_data_normal (mode : String) (len : Nat)
    (u g e : Nat → ℚ) (h : pyLower mode = "normal") :
    experimental_data mode len u g e
      = .ok (((List.range len).map g).map
          (fun val => (pyRound (val * 10) : ℚ) / 10)) := by
  rw [experimental_data, if_neg (by rw [h]; decide), if_pos h]

theorem experimental_data_exponential (mode : String) (len : Nat)
    (u g e : Nat → ℚ) (h : pyLower mode = "exponential") :
    experimental_data mode len u g e
      = .ok (((List.range len).map e).map
          (fun val => (pyRound (val * 10) : ℚ) / 10)) := by
  rw [experimental_data, if_neg (by rw [h]; decide),
    if_neg (by rw [h]; decide), if_pos h]

theorem experimental_data_invalid (mode : String) (len : Nat)
    (u g e : Nat → ℚ) (h1 : ¬ pyLower mode = "uniform")
    (h2 : ¬ pyLower mode = "normal") (h3 : ¬ pyLower mode = "exponential") :
    experimental_data mode len u g e
      = .error ("Please choose a valid mode. " ++ mode ++ " is not valid.") := by
  rw [experimental_data, if_neg h1, if_neg h2, if_neg h3]

theorem experimental_data_ok_length (mode : String) (len : Nat)
    (u g e : Nat → ℚ) (Ldata : List ℚ)
    (hacc : experimental_data mode len u g e = .ok Ldata) :
    Ldata.length = len := by
  by_cases h1 : pyLower mode = "uniform"
  · rw [experimental_data_uniform mode len u g e h1] at hacc
    simp only [Except.ok.injEq] at hacc
    rw [← hacc, List.length_map, List.length_range]
  · by_cases h2 : pyLower mode = "normal"
    · rw [experimental_data_normal mode len u g e h2] at hacc
      simp only [Except.ok.injEq] at hacc
      rw [← hacc, List.length_map, List.length_map, List.length_range]
    · by_cases h3 : pyLower mode = "exponential"
      · rw [experimental_data_exponential mode len u g e h3] at hacc
        simp only [Except.ok.injEq] at hacc
        rw [← hacc, List.length_map, List.length_map, List.length_range]
      · rw [experimental_data_invalid mode len u g e h1 h2 h3] at hacc
        exact absurd hacc (by simp)

end accuracy

/-- C4: `experimental_data` raises an error whose message names the given
mode exactly when the lowercased mode is none of `"uniform"`, `"normal"`,
`"exponential"`; for each recognized mode it returns, without raising, a
list of exactly `length` numbers. -/
theorem claim_C4 (mode : String) (len : Nat) (u g e : Nat → ℚ) :
    ((∃ msg, accuracy.experimental_data mode len u g e = .error msg ∧
        ∃ pre post, msg = pre ++ mode ++ post) ↔
      ¬ (pyLower mode = "uniform" ∨ pyLower mode = "normal" ∨
          pyLower mode = "exponential")) ∧
    ((pyLower mode = "uniform" ∨ pyLower mode = "normal" ∨
        pyLower mode = "exponential") →
      ∃ Ldata, accuracy.experimental_data mode len u g e = .ok Ldata ∧
        Ldata.length = len) := by
  constructor
  · constructor
    · rintro ⟨msg, hmsg, -⟩ hval
      rcases hval with h | h | h
      · rw [accuracy.experimental_data_uniform mode len u g e h] at hmsg
        exact absurd hmsg (by simp)
      · rw [accuracy.experimental_data_normal mode len u g e h] at hmsg
        exact absurd hmsg (by simp)
      · rw [accuracy.experimental_data_exponential mode len u g e h] at hmsg
        exact absurd hmsg (by simp)
    · intro hval
      push_neg at hval
      exact ⟨"Please choose a valid mode. " ++ mode ++ " is not valid.",
        accuracy.experimental_data_invalid mode len u g e hval.1 hval.2.1
          hval.2.2,
        "Please choose a valid mode. ", " is not valid.", rfl⟩
  · intro hval
    rcases hval with h | h | h
    · exact ⟨_, accuracy.experimental_data_uniform mode len u g e h,
        by rw [List.length_map, List.length_range]⟩
    · exact ⟨_, accuracy.experimental_data_normal mode len u g e h,
        by rw [List.length_map, List.length_map, List.length_range]⟩
    · exact ⟨_, accuracy.experimental_data_exponential mode len u g e h,
        by rw [List.length_map, List.length_map, List.length_range]⟩

/-- Witness for C4: the mixed-case mode `"Uniform"` is accepted and yields a
2-element list, and the unrecognized mode `"FOO"` yields an error whose
message contains `"FOO"`. -/
theorem claim_C4_witness :
    (∃ Ldata, accuracy.experimental_data "Uniform" 2 (fun _ => 0)
        (fun _ => 0) (fun _ => 0) = .ok Ldata ∧ Ldata.length = 2) ∧
    (∃ msg, accuracy.experimental_data "FOO" 2 (fun _ => 0) (fun _ => 0)
        (fun _ => 0) = .error msg ∧ ∃ pre post, msg = pre ++ "FOO" ++ post) :=
  ⟨(claim_C4 "Uniform" 2 (fun _ => 0) (fun _ => 0) (fun _ => 0)).2
      (Or.inl (by decide)),
   (claim_C4 "FOO" 2 (fun _ => 0) (fun _ => 0) (fun _ => 0)).1.mpr
      (by decide)⟩

/-- C7: with `random.random()` honouring its contract of drawing from
`[0, 1)`, every element produced by the accuracy script's
`experimental_data` in mode `"uniform"`, and every element produced by the
performance script's `experimental_data`, lies in `[0, 1)`. -/
theorem claim_C7 (len : Nat) (u g e : Nat → ℚ) (Ldata : List ℚ) (x y : ℚ)
    (hu : ∀ i, 0 ≤ u i ∧ u i < 1)
    (hacc : accuracy.experimental_data "uniform" len u g e = .ok Ldata)
    (hx : x ∈ Ldata) (hy : y ∈ perf.experimental_data len u) :
    (0 ≤ x ∧ x < 1) ∧ (0 ≤ y ∧ y < 1) := by
  rw [accuracy.experimental_data_uniform "uniform" len u g e rfl] at hacc
  simp only [Except.ok.injEq] at hacc
  rw [← hacc] at hx
  constructor
  · obtain ⟨i, -, rfl⟩ := List.mem_map.mp hx
    exact hu i
  · simp only [perf.experimental_data] at hy
    obtain ⟨i, -, rfl⟩ := List.mem_map.mp hy
    exact hu i

/-- Witness for C7 with the constant draw `0` and length `1`. -/
theorem claim_C7_witness :
    ((0 : ℚ) ≤ 0 ∧ (0 : ℚ) < 1) ∧ ((0 : ℚ) ≤ 0 ∧ (0 : ℚ) < 1) :=
  claim_C7 1 (fun _ => 0) (fun _ => 0) (fun _ => 0) [0] 0 0
    (fun _ => ⟨le_refl 0, by norm_num⟩) rfl (List.mem_singleton_self 0)
    (List.mem_singleton_self 0)

/-- C8: in modes `"normal"` and `"exponential"` every element returned by
`experimental_data` is an exact multiple of one tenth. -/
theorem claim_C8 (mode : String) (len : Nat) (u g e : Nat → ℚ)
    (Ldata : List ℚ) (x : ℚ)
    (hmode : pyLower mode = "normal" ∨ pyLower mode = "exponential")
    (hacc : accuracy.experimental_data mode len u g e = .ok Ldata)
    (hx : x ∈ Ldata) :
    ∃ k : ℤ, x = (k : ℚ) / 10 := by
  rcases hmode with h | h
  · rw [accuracy.experimental_data_normal mode len u g e h] at hacc
    simp only [Except.ok.injEq] at hacc
    rw [← hacc] at hx
    obtain ⟨val, -, rfl⟩ := List.mem_map.mp hx
    exact ⟨accuracy.pyRound (val * 10), rfl⟩
  · rw [accuracy.experimental_data_exponential mode len u g e h] at hacc
    simp only [Except.ok.injEq] at hacc
    rw [← hacc] at hx
    obtain ⟨val, -, rfl⟩ := List.mem_map.mp hx
    exact ⟨accuracy.pyRound (val * 10), rfl⟩

/-- Witness for C8 in mode `"normal"` with the constant gaussian draw `0`. -/
theorem claim_C8_witness :
    ∃ k : ℤ, ((accuracy.pyRound ((0 : ℚ) * 10) : ℚ) / 10) = (k : ℚ) / 10 :=
  claim_C8 "normal" 1 (fun _ => 0) (fun _ => 0) (fun _ => 0)
    (((List.range 1).map (fun _ => (0 : ℚ))).map
      (fun val => (accuracy.pyRound (val * 10) : ℚ) / 10))
    ((accuracy.pyRound ((0 : ℚ) * 10) : ℚ) / 10)
    (Or.inl rfl) rfl (List.mem_singleton.mpr rfl)

namespace accuracy

/-- Evaluation of `score_median` on a successful run: when the data
generation succeeds, the sample size is between 1 and the population size,
and the population's median is nonzero, the function returns the relative
error formula applied to the middle elements of the sorted population and
of the sorted sample. -/
theorem score_median_ok (mode : String) (k : Nat) (u g e : Nat → ℚ)
    (sel : List Nat) (data0 : List ℚ)
    (hacc : experimental_data mode 16384 u g e = .ok data0)
    (hk1 : 1 ≤ k) (hk2 : k ≤ 16384) (hsel : sel.length = k)
    (hmed : (sortQ data0).getD ((sortQ data0).length / 2) 0 ≠ 0) :
    score_median mode k u g e sel =
      .ok (|(sortQ (sel.map (fun i => (sortQ data0).getD i 0))).getD
            ((sortQ (sel.map (fun i => (sortQ data0).getD i 0))).length / 2) 0
          - (sortQ data0).getD ((sortQ data0).length / 2) 0|
        / (sortQ data0).getD ((sortQ data0).length / 2) 0) := by
  have hlen0 : data0.length = 16384 :=
    experimental_data_ok_length mode 16384 u g e data0 hacc
  have hslen : (sortQ data0).length = 16384 := by rw [sortQ_length, hlen0]
  have hidx : (sortQ data0).length / 2 < (sortQ data0).length := by omega
  have hget1 : (sortQ data0)[(sortQ data0).length / 2]?
      = some ((sortQ data0).getD ((sortQ data0).length / 2) 0) := by
    rw [List.getElem?_eq_getElem hidx, getD_eq_getElem_of_lt _ _ hidx]
  have hsmplen : (sortQ (sel.map (fun i => (sortQ data0).getD i 0))).length
      = k := by
    rw [sortQ_length, List.length_map, hsel]
  have hidx2 : (sortQ (sel.map (fun i => (sortQ data0).getD i 0))).length / 2
      < (sortQ (sel.map (fun i => (sortQ data0).getD i 0))).length := by
    omega
  have hget2 : (sortQ (sel.map (fun i => (sortQ data0).getD i 0)))[
      (sortQ (sel.map (fun i => (sortQ data0).getD i 0))).length / 2]?
      = some ((sortQ (sel.map (fun i => (sortQ data0).getD i 0))).getD
          ((sortQ (sel.map (fun i => (sortQ data0).getD i 0))).length / 2)
          0) := by
    rw [List.getElem?_eq_getElem hidx2, getD_eq_getElem_of_lt _ _ hidx2]
  have hkle : k ≤ (sortQ data0).length := by omega
  simp only [score_median, hacc, hget1, hget2, if_pos hkle, if_neg hmed]

end accuracy

/-- C5 as amended: for a recognized distribution name, a sample size between
1 and the population length, a without-replacement sample described by
distinct in-range positions, and a population whose true median is nonzero
(otherwise the final division raises `ZeroDivisionError`), `score_median`
returns `|estimated − actual| / actual`, where `actual` is the element at
index `len // 2` of the sorted 16384-element population and `estimated` the
element at index `len // 2` of the sorted subsample. -/
theorem claim_C5 (mode : String) (k : Nat) (u g e : Nat → ℚ)
    (sel : List Nat) (data0 : List ℚ)
    (hacc : accuracy.experimental_data mode 16384 u g e = .ok data0)
    (hk1 : 1 ≤ k) (hk2 : k ≤ 16384) (hsel : sel.length = k)
    (hnd : sel.Nodup) (hbound : ∀ i ∈ sel, i < 16384)
    (hmed : (sortQ data0).getD (data0.length / 2) 0 ≠ 0) :
    data0.length = 16384 ∧
    accuracy.score_median mode k u g e sel =
      .ok (|(sortQ (sel.map (fun i => (sortQ data0).getD i 0))).getD
            ((sel.map (fun i => (sortQ data0).getD i 0)).length / 2) 0
          - (sortQ data0).getD (data0.length / 2) 0|
        / (sortQ data0).getD (data0.length / 2) 0) := by
  have hlen0 : data0.length = 16384 :=
    accuracy.experimental_data_ok_length mode 16384 u g e data0 hacc
  have heq : (sortQ data0).length = data0.length := sortQ_length data0
  have hmed2 : (sortQ data0).getD ((sortQ data0).length / 2) 0 ≠ 0 := by
    rw [heq]; exact hmed
  have h := accuracy.score_median_ok mode k u g e sel data0 hacc hk1 hk2
    hsel hmed2
  rw [sortQ_length (sel.map (fun i => (sortQ data0).getD i 0)), heq] at h
  exact ⟨hlen0, h⟩

/-- C6 as amended: under the same conditions, and provided the population's
true median is positive, the returned score is nonnegative. -/
theorem claim_C6 (mode : String) (k : Nat) (u g e : Nat → ℚ)
    (sel : List Nat) (data0 : List ℚ)
    (hacc : accuracy.experimental_data mode 16384 u g e = .ok data0)
    (hk1 : 1 ≤ k) (hk2 : k ≤ 16384) (hsel : sel.length = k)
    (hnd : sel.Nodup) (hbound : ∀ i ∈ sel, i < 16384)
    (hmedpos : 0 < (sortQ data0).getD (data0.length / 2) 0) :
    ∃ v, accuracy.score_median mode k u g e sel = .ok v ∧ 0 ≤ v := by
  have heq : (sortQ data0).length = data0.length := sortQ_length data0
  have hmed2 : (sortQ data0).getD ((sortQ data0).length / 2) 0 ≠ 0 := by
    rw [heq]; exact ne_of_gt hmedpos
  refine ⟨_, accuracy.score_median_ok mode k u g e sel data0 hacc hk1 hk2
    hsel hmed2, ?_⟩
  apply div_nonneg (abs_nonneg _)
  rw [heq]
  exact le_of_lt hmedpos

/-- Population produced by mode `"uniform"` when every draw equals `c`. -/
theorem uniform_const_data (c : ℚ) :
    accuracy.experimental_data "uniform" 16384 (fun _ => c) (fun _ => 0)
      (fun _ => 0) = .ok (List.replicate 16384 c) := by
  rw [accuracy.experimental_data_uniform "uniform" 16384 (fun _ => c)
    (fun _ => 0) (fun _ => 0) rfl, map_const_range]

namespace accuracy

/-- Evaluation of `score_median` when the population's true median is zero:
the final division raises, modelled as `ZeroDivisionError`. -/
theorem score_median_zero (mode : String) (k : Nat) (u g e : Nat → ℚ)
    (sel : List Nat) (data0 : List ℚ)
    (hacc : experimental_data mode 16384 u g e = .ok data0)
    (hk1 : 1 ≤ k) (hk2 : k ≤ 16384) (hsel : sel.length = k)
    (hmed : (sortQ data0).getD ((sortQ data0).length / 2) 0 = 0) :
    score_median mode k u g e sel = .error "ZeroDivisionError" := by
  have hlen0 : data0.length = 16384 :=
    experimental_data_ok_length mode 16384 u g e data0 hacc
  have hslen : (sortQ data0).length = 16384 := by rw [sortQ_length, hlen0]
  have hidx : (sortQ data0).length / 2 < (sortQ data0).length := by omega
  have hget1 : (sortQ data0)[(sortQ data0).length / 2]?
      = some ((sortQ data0).getD ((sortQ data0).length / 2) 0) := by
    rw [List.getElem?_eq_getElem hidx, getD_eq_getElem_of_lt _ _ hidx]
  have hsmplen : (sortQ (sel.map (fun i => (sortQ data0).getD i 0))).length
      = k := by
    rw [sortQ_length, List.length_map, hsel]
  have hidx2 : (sortQ (sel.map (fun i => (sortQ data0).getD i 0))).length / 2
      < (sortQ (sel.map (fun i => (sortQ data0).getD i 0))).length := by
    omega
  have hget2 : (sortQ (sel.map (fun i => (sortQ data0).getD i 0)))[
      (sortQ (sel.map (fun i => (sortQ data0).getD i 0))).length / 2]?
      = some ((sortQ (sel.map (fun i => (sortQ data0).getD i 0))).getD
          ((sortQ (sel.map (fun i => (sortQ data0).getD i 0))).length / 2)
          0) := by
    rw [List.getElem?_eq_getElem hidx2, getD_eq_getElem_of_lt _ _ hidx2]
  have hkle : k ≤ (sortQ data0).length := by omega
  simp only [score_median, hacc, hget1, hget2, if_pos hkle, if_pos hmed]

end accuracy

/-- C5 counterexample: with every `random.random()` draw equal to `0` (a
value inside its documented range `[0, 1)`), the population's true median
is `0` and `score_median` raises `ZeroDivisionError` instead of returning
the relative-error value, even though the mode is valid and the sample size
is in range. -/
theorem claim_C5_counterexample :
    pyLower "uniform" = "uniform" ∧ (1 : Nat) ≤ 16384 ∧
    accuracy.score_median "uniform" 1 (fun _ => 0) (fun _ => 0) (fun _ => 0)
      [0] = .error "ZeroDivisionError" := by
  refine ⟨rfl, by norm_num, ?_⟩
  apply accuracy.score_median_zero "uniform" 1 (fun _ => 0) (fun _ => 0)
    (fun _ => 0) [0] (List.replicate 16384 0) (uniform_const_data 0)
    (le_refl 1) (by norm_num) rfl
  rw [sortQ_eq_of_sorted _ (sorted_replicate _ _), List.length_replicate,
    getD_replicate _ _ _ (by norm_num)]

/-- Witness for the amended C5: constant uniform draws equal to `1` give a
population of 16384 ones, whose median `1` is nonzero. -/
theorem claim_C5_witness :
    (List.replicate 16384 (1 : ℚ)).length = 16384 ∧
    accuracy.score_median "uniform" 1 (fun _ => 1) (fun _ => 0) (fun _ => 0)
        [0] =
      .ok (|(sortQ (([0] : List Nat).map
            (fun i => (sortQ (List.replicate 16384 (1 : ℚ))).getD i 0))).getD
            ((([0] : List Nat).map
              (fun i => (sortQ (List.replicate 16384 (1 : ℚ))).getD i 0)).length
              / 2) 0
          - (sortQ (List.replicate 16384 (1 : ℚ))).getD
              ((List.replicate 16384 (1 : ℚ)).length / 2) 0|
        / (sortQ (List.replicate 16384 (1 : ℚ))).getD
            ((List.replicate 16384 (1 : ℚ)).length / 2) 0) :=
  claim_C5 "uniform" 1 (fun _ => 1) (fun _ => 0) (fun _ => 0) [0]
    (List.replicate 16384 1) (uniform_const_data 1) (le_refl 1)
    (by norm_num) rfl (List.nodup_singleton 0)
    (by
      intro i hi
      have := List.mem_singleton.mp hi
      omega)
    (by
      rw [sortQ_eq_of_sorted _ (sorted_replicate _ _), List.length_replicate,
        getD_replicate _ _ _ (by norm_num)]
      norm_num)

/-- Population produced by mode `"normal"` when the first gaussian draw is
`-2` and all later draws are `-1` (after the script's one-decimal
binning). -/
theorem normal_counter_data :
    accuracy.experimental_data "normal" 16384 (fun _ => 0)
        (fun i => if i = 0 then -2 else -1) (fun _ => 0)
      = .ok ((-2 : ℚ) :: List.replicate 16383 (-1)) := by
  rw [accuracy.experimental_data_normal "normal" 16384 (fun _ => 0)
    (fun i => if i = 0 then -2 else -1) (fun _ => 0) rfl]
  have hstep : (List.range 16383).map
        ((fun i => if i = 0 then (-2 : ℚ) else -1) ∘ Nat.succ)
      = List.replicate 16383 (-1 : ℚ) :=
    (List.map_congr_left (fun a _ => by simp [Function.comp])).trans
      (map_const_range _ _)
  have h1 : (List.range 16384).map (fun i => if i = 0 then (-2 : ℚ) else -1)
      = (-2 : ℚ) :: List.replicate 16383 (-1) := by
    rw [show (16384 : Nat) = 16383 + 1 from rfl, List.range_succ_eq_map,
      List.map_cons, List.map_map, hstep]
    rfl
  rw [h1, List.map_cons, List.map_replicate]
  have hf2 : (accuracy.pyRound ((-2 : ℚ) * 10) : ℚ) / 10 = -2 := by
    rw [accuracy.pyRound_eval ((-2 : ℚ) * 10) (-20) (by norm_num)]
    norm_num
  have hf1 : (accuracy.pyRound ((-1 : ℚ) * 10) : ℚ) / 10 = -1 := by
    rw [accuracy.pyRound_eval ((-1 : ℚ) * 10) (-10) (by norm_num)]
    norm_num
  simp only [hf2, hf1]

/-- C6 counterexample: a possible run in mode `"normal"` (gaussian draws
are unbounded; here the first is `-2` and the rest are `-1`) has a negative
true median `-1`, and `score_median` returns `-1`, a negative score, even
though the mode is valid and the sample size is in range. -/
theorem claim_C6_counterexample :
    pyLower "normal" = "normal" ∧ (1 : Nat) ≤ 16384 ∧
    accuracy.score_median "normal" 1 (fun _ => 0)
      (fun i => if i = 0 then -2 else -1) (fun _ => 0) [0] = .ok (-1) ∧
    ((-1 : ℚ) < 0) := by
  have hsorted : sortQ ((-2 : ℚ) :: List.replicate 16383 (-1))
      = (-2 : ℚ) :: List.replicate 16383 (-1) := by
    apply sortQ_eq_of_sorted
    rw [List.sorted_cons]
    refine ⟨fun b hb => ?_, sorted_replicate _ _⟩
    rw [(List.mem_replicate.mp hb).2]
    norm_num
  have hmed : (sortQ ((-2 : ℚ) :: List.replicate 16383 (-1))).getD
      ((sortQ ((-2 : ℚ) :: List.replicate 16383 (-1))).length / 2) 0
      = -1 := by
    rw [hsorted]
    simp only [List.length_cons, List.length_replicate]
    rw [show (16383 + 1) / 2 = 8191 + 1 from by norm_num,
      List.getD_cons_succ, getD_replicate 16383 8191 (-1) (by norm_num)]
  have h := accuracy.score_median_ok "normal" 1 (fun _ => 0)
    (fun i => if i = 0 then -2 else -1) (fun _ => 0) [0]
    ((-2 : ℚ) :: List.replicate 16383 (-1)) normal_counter_data (le_refl 1)
    (by norm_num) rfl (by rw [hmed]; norm_num)
  refine ⟨rfl, by norm_num, ?_, by norm_num⟩
  rw [h, hmed]
  have hsample : ([0] : List Nat).map
      (fun i => (sortQ ((-2 : ℚ) :: List.replicate 16383 (-1))).getD i 0)
      = [(-2 : ℚ)] := by
    rw [List.map_cons, List.map_nil, hsorted, List.getD_cons_zero]
  rw [hsample, show sortQ [(-2 : ℚ)] = [-2] from rfl]
  norm_num [List.getD_cons_zero]

/-- Witness for the amended C6: constant uniform draws equal to `1` give a
population whose true median `1` is positive, and the score is
nonnegative. -/
theorem claim_C6_witness :
    ∃ v, accuracy.score_median "uniform" 1 (fun _ => 1) (fun _ => 0)
        (fun _ => 0) [0] = .ok v ∧ 0 ≤ v :=
  claim_C6 "uniform" 1 (fun _ => 1) (fun _ => 0) (fun _ => 0) [0]
    (List.replicate 16384 1) (uniform_const_data 1) (le_refl 1) (by norm_num)
    rfl (List.nodup_singleton 0)
    (by
      intro i hi
      have := List.mem_singleton.mp hi
      omega)
    (by
      rw [sortQ_eq_of_sorted _ (sorted_replicate _ _), List.length_replicate,
        getD_replicate _ _ _ (by norm_num)]
      norm_num)

/-! Machinery for the trial-loop result tables. -/

theorem dictAssign_fresh (d : List (Nat × ℚ)) (k : Nat) (v : ℚ)
    (h : k ∉ d.map Prod.fst) : dictAssign d k v = d ++ [(k, v)] := by
  rw [dictAssign, if_neg]
  simpa using h

theorem foldl_dictAssign (f : Nat → ℚ) : ∀ (ks : List Nat)
    (d : List (Nat × ℚ)), ks.Nodup → (∀ x ∈ ks, x ∉ d.map Prod.fst) →
    ks.foldl (fun t s => dictAssign t s (f s)) d
      = d ++ ks.map (fun s => (s, f s)) := by
  intro ks
  induction ks with
  | nil =>
    intro d _ _
    simp
  | cons k ks ih =>
    intro d hnd hfresh
    rw [List.foldl_cons,
      dictAssign_fresh d k (f k) (hfresh k (List.mem_cons_self k ks))]
    have hfresh2 : ∀ x ∈ ks, x ∉ (d ++ [(k, f k)]).map Prod.fst := by
      intro x hx hmem
      rw [List.map_append, List.mem_append] at hmem
      rcases hmem with hc | hc
      · exact hfresh x (List.mem_cons_of_mem _ hx) hc
      · simp only [List.map_cons, List.map_nil, List.mem_singleton] at hc
        exact (List.nodup_cons.mp hnd).1 (hc ▸ hx)
    rw [ih (d ++ [(k, f k)]) (List.nodup_cons.mp hnd).2 hfresh2]
    simp

theorem foldl_dict_triple (f1 f2 f3 : Nat → ℚ) : ∀ (ks : List Nat)
    (a b c : List (Nat × ℚ)),
    ks.foldl (fun t s => (dictAssign t.1 s (f1 s), dictAssign t.2.1 s (f2 s),
        dictAssign t.2.2 s (f3 s))) (a, b, c)
      = (ks.foldl (fun d s => dictAssign d s (f1 s)) a,
         ks.foldl (fun d s => dictAssign d s (f2 s)) b,
         ks.foldl (fun d s => dictAssign d s (f3 s)) c) := by
  intro ks
  induction ks with
  | nil =>
    intro a b c
    rfl
  | cons k ks ih =>
    intro a b c
    rw [List.foldl_cons, List.foldl_cons, List.foldl_cons, List.foldl_cons]
    exact ih (dictAssign a k (f1 k)) (dictAssign b k (f2 k))
      (dictAssign c k (f3 k))

theorem foldl_dict_pair (f1 f2 : Nat → ℚ) : ∀ (ks : List Nat)
    (a b : List (Nat × ℚ)),
    ks.foldl (fun t s => (dictAssign t.1 s (f1 s), dictAssign t.2 s (f2 s)))
        (a, b)
      = (ks.foldl (fun d s => dictAssign d s (f1 s)) a,
         ks.foldl (fun d s => dictAssign d s (f2 s)) b) := by
  intro ks
  induction ks with
  | nil =>
    intro a b
    rfl
  | cons k ks ih =>
    intro a b
    rw [List.foldl_cons, List.foldl_cons, List.foldl_cons]
    exact ih (dictAssign a k (f1 k)) (dictAssign b k (f2 k))

theorem pyRange_nodup (start stop step : Nat) (hstep : 0 < step) :
    (pyRange start stop step).Nodup := by
  apply List.Nodup.map
  · intro i j hij
    have hij2 : start + step * i = start + step * j := hij
    have : step * i = step * j := by omega
    exact Nat.eq_of_mul_eq_mul_left hstep this
  · exact List.nodup_range _

/-- C9: after the trial loop, each result table of each `run_test` is
exactly the list of one entry per configuration value — keyed by
`range(4, 128, 4)` for the three accuracy tables and by
`range(2**10, 2**19, 2**15)` for the two performance tables — whose value
is the average of the trials (20, resp. 5) for that key. -/
theorem claim_C9 (score : String → Nat → Nat → ℚ)
    (sortClk heapClk : Nat → Nat → ℚ × ℚ) :
    (accuracy.run_test score).1
      = (pyRange 4 128 4).map (fun s =>
          (s, (((List.range 20).map (fun i => score "uniform" s i)).sum)
            / 20)) ∧
    (accuracy.run_test score).2.1
      = (pyRange 4 128 4).map (fun s =>
          (s, (((List.range 20).map (fun i => score "normal" s i)).sum)
            / 20)) ∧
    (accuracy.run_test score).2.2
      = (pyRange 4 128 4).map (fun s =>
          (s, (((List.range 20).map (fun i => score "exponential" s i)).sum)
            / 20)) ∧
    (pyRange 4 128 4).Nodup ∧
    (perf.run_test sortClk heapClk).1
      = (pyRange (2 ^ 10) (2 ^ 19) (2 ^ 15)).map (fun len =>
          (len, (((List.range 5).map
            (fun i => perf.time_median (sortClk len i))).sum) / 5)) ∧
    (perf.run_test sortClk heapClk).2
      = (pyRange (2 ^ 10) (2 ^ 19) (2 ^ 15)).map (fun len =>
          (len, (((List.range 5).map
            (fun i => perf.time_median (heapClk len i))).sum) / 5)) ∧
    (pyRange (2 ^ 10) (2 ^ 19) (2 ^ 15)).Nodup := by
  have hnd1 : (pyRange 4 128 4).Nodup := pyRange_nodup 4 128 4 (by norm_num)
  have hnd2 : (pyRange (2 ^ 10) (2 ^ 19) (2 ^ 15)).Nodup :=
    pyRange_nodup _ _ _ (by norm_num)
  refine ⟨?_, ?_, ?_, hnd1, ?_, ?_, hnd2⟩
  · simp only [accuracy.run_test, foldl_dict_triple]
    simpa using foldl_dictAssign _ (pyRange 4 128 4) [] hnd1 (by simp)
  · simp only [accuracy.run_test, foldl_dict_triple]
    simpa using foldl_dictAssign _ (pyRange 4 128 4) [] hnd1 (by simp)
  · simp only [accuracy.run_test, foldl_dict_triple]
    simpa using foldl_dictAssign _ (pyRange 4 128 4) [] hnd1 (by simp)
  · simp only [perf.run_test, foldl_dict_pair]
    simpa using foldl_dictAssign _ (pyRange (2 ^ 10) (2 ^ 19) (2 ^ 15)) []
      hnd2 (by simp)
  · simp only [perf.run_test, foldl_dict_pair]
    simpa using foldl_dictAssign _ (pyRange (2 ^ 10) (2 ^ 19) (2 ^ 15)) []
      hnd2 (by simp)

/-- Witness for C9 at constant oracles: the uniform accuracy table is keyed
exactly by `range(4, 128, 4)`. -/
theorem claim_C9_witness :
    (accuracy.run_test (fun _ _ _ => 0)).1
      = (pyRange 4 128 4).map (fun s =>
          (s, (((List.range 20).map
            (fun i => (fun _ _ _ => (0 : ℚ)) "uniform" s i)).sum) / 20)) :=
  (claim_C9 (fun _ _ _ => 0) (fun _ _ => (0, 0)) (fun _ _ => (0, 0))).1
